import Mathlib

/-!
Verification of the output-parsing and disambiguation engine of the
`scummer` tool (`src/main.go`).  The engine is the function
`parseScummvmOutput`, which takes the captured stdout of a ScummVM
`--detect` run and returns the `(GameID, Description)` pair of the best
candidate, or a typed failure.

Strings are embedded as `List Char` (Go strings are sequences of runes as
far as the regex engine and the scanning code here are concerned).  The
three Go regexes used by the source are embedded as executable scanners
that reproduce RE2's leftmost-first submatch semantics on those concrete
patterns:

* `GameID\s+Description\s+Full Path` (header detection, `MatchString`):
  since the literals start with non-whitespace characters, maximal-munch
  scanning of the whitespace runs is exact.
* `^-+\s-+\s-+$` (rule line): after a maximal dash run the single `\s`
  and the following dash are forced, so maximal-munch is exact.
* `^(.+?)\s{2,}(.+?)\s{2,}(.+?)$` (row splitting, `ReplaceAllString` with
  `$1`/`$2`/`$3`): embedded with the engine's backtracking priorities:
  shortest first group, then longest first separator, then shortest
  second group, then longest second separator; `.` matches any character
  except `'\n'`, `\s` is `[\t\n\f\r ]`.

The third-party libraries `strutil`/`metrics` (similarity) and
`snowball` (stemming) are not part of the repository: the similarity
metric is modelled from the spec (§4.3) over `ℚ`, and the stemmer is an
abstract parameter `stem : List Char → Option (List Char)` of the
disambiguator, matching the fallible call sites in the source.
-/

namespace Scummer

/-- Convert a Lean string literal to the `List Char` representation used
throughout this development. -/
def strL (s : String) : List Char := s.toList

/-- Whitespace class of Go's RE2 `\s`, namely `[\t\n\f\r ]`. -/
def isWS (c : Char) : Bool :=
  decide (c = ' ' ∨ c = '\t' ∨ c = '\n' ∨ c = '\x0C' ∨ c = '\r')

/-- Boolean list-prefix test (embeds the prefix checks done by
`strings.Contains` and `strings.Split` when they look for a pattern at a
position). -/
def prefixL : List Char → List Char → Bool
  | [], _ => true
  | _ :: _, [] => false
  | a :: p, c :: s => if a = c then prefixL p s else false

/-- Go `strings.Contains(s, p)` (second argument is the haystack):
scan every suffix for `p` as a prefix. -/
def containsL (p : List Char) : List Char → Bool
  | [] => prefixL p []
  | c :: t => prefixL p (c :: t) || containsL p t

/-- If `lit` is a prefix of `s`, return the rest of `s`. -/
def dropLit : List Char → List Char → Option (List Char)
  | [], s => some s
  | _ :: _, [] => none
  | a :: p, c :: s => if a = c then dropLit p s else none

/-- Split a list at the longest prefix satisfying `p`
(returns that prefix and the rest). -/
def spanP (p : Char → Bool) : List Char → List Char × List Char
  | [] => ([], [])
  | c :: t =>
    if p c then
      let r := spanP p t
      (c :: r.1, r.2)
    else ([], c :: t)

/-- Longest whitespace prefix and the rest. -/
def spanWS (l : List Char) : List Char × List Char := spanP isWS l

/-- Scanner for Go `strings.Split(s, sep)` with non-empty separator
`s₀ :: sep'`: split around each leftmost occurrence of the separator.
The `fuel` argument only makes the recursion structural; it never runs
out when it starts at the length of the scanned list. -/
def splitOnAux (s₀ : Char) (sep' : List Char) : Nat → List Char → List Char → List (List Char)
  | _, [], acc => [acc.reverse]
  | 0, l, acc => [acc.reverse ++ l]
  | fuel + 1, c :: t, acc =>
    if prefixL (s₀ :: sep') (c :: t) then
      acc.reverse :: splitOnAux s₀ sep' fuel (t.drop sep'.length) []
    else
      splitOnAux s₀ sep' fuel t (c :: acc)

/-- Go `strings.Split` (for an empty separator Go splits into single
runes; the source only ever splits on `"\n"` or `"\r\n"`). -/
def splitOnL (sep s : List Char) : List (List Char) :=
  match sep with
  | [] => s.map (fun c => [c])
  | s₀ :: sep' => splitOnAux s₀ sep' s.length s []

/-- Join a list of lines with a separator (inverse of `splitOnL` when no
line contains the separator; used to state the CRLF/LF claim). -/
def joinSep (sep : List Char) : List (List Char) → List Char
  | [] => []
  | [l] => l
  | l :: ls => l ++ sep ++ joinSep sep ls

/-! ### Header regex `GameID\s+Description\s+Full Path` -/

/-- The literal `GameID`. -/
def gameIDL : List Char := strL "GameID"

/-- The literal `Description`. -/
def descriptionL : List Char := strL "Description"

/-- The literal `Full Path`. -/
def fullPathL : List Char := strL "Full Path"

/-- Match `GameID\s+Description\s+Full Path` starting exactly at the
head of `s`.  The whitespace runs are taken maximally, which is exact
because the following literals start with non-whitespace characters. -/
def matchHeaderAt (s : List Char) : Bool :=
  match dropLit gameIDL s with
  | none => false
  | some r1 =>
    let p1 := spanWS r1
    if p1.1 = [] then false
    else
      match dropLit descriptionL p1.2 with
      | none => false
      | some r3 =>
        let p2 := spanWS r3
        if p2.1 = [] then false
        else (dropLit fullPathL p2.2).isSome

/-- `regexp.MatchString` for the header pattern: does some position of
`s` start a match? -/
def headerScan : List Char → Bool
  | [] => false
  | c :: t => matchHeaderAt (c :: t) || headerScan t

/-! ### Rule-line regex `^-+\s-+\s-+$` -/

/-- Match of the whole line against `^-+\s-+\s-+$`: three non-empty dash
runs separated by exactly one whitespace character each. -/
def ruleLine (l : List Char) : Bool :=
  let d1 := spanP (fun c => c = '-') l
  match d1.1, d1.2 with
  | [], _ => false
  | _ :: _, w1 :: r2 =>
    if isWS w1 then
      let d2 := spanP (fun c => c = '-') r2
      match d2.1, d2.2 with
      | [], _ => false
      | _ :: _, w2 :: r4 =>
        if isWS w2 then
          let d3 := spanP (fun c => c = '-') r4
          match d3.1, d3.2 with
          | [], _ => false
          | _ :: _, [] => true
          | _ :: _, _ :: _ => false
        else false
      | _ :: _, [] => false
    else false
  | _ :: _, [] => false

/-! ### Row regex `^(.+?)\s{2,}(.+?)\s{2,}(.+?)$`

Backtracking priorities of the Go engine on this pattern: shortest `$1`,
then longest first `\s{2,}`, then shortest `$2`, then longest second
`\s{2,}`; `$3` is forced to the rest of the line. -/

/-- Try the final `\s{2,}(.+?)$` given the maximal whitespace run `run`
at the current position and the rest `rest` after it, with the separator
taking the first `j` characters of `run` (tried from longest down to 2).
Returns the text of `$3` on success: it must be non-empty and free of
`'\n'`. -/
def tryG3 (run rest : List Char) : Nat → Option (List Char)
  | 0 => none
  | 1 => none
  | j + 2 =>
    let g3 := run.drop (j + 2) ++ rest
    if g3 = [] then tryG3 run rest (j + 1)
    else if '\n' ∈ g3 then tryG3 run rest (j + 1)
    else some g3

/-- Try to read a separator (`\s{2,}`) followed by a valid `$3` at the
current position. -/
def trySep (rest : List Char) : Option (List Char) :=
  let p := spanWS rest
  tryG3 p.1 p.2 p.1.length

/-- Scan for `(.+?)\s{2,}(.+?)$`: grow `$2` one character at a time
(shortest first, never across `'\n'`), and after each character try the
separator and `$3`.  Returns `($2, $3)`. -/
def tail2 : List Char → List Char → Option (List Char × List Char)
  | _, [] => none
  | g2rev, c :: rest =>
    if c = '\n' then none
    else
      match trySep rest with
      | some g3 => some ((c :: g2rev).reverse, g3)
      | none => tail2 (c :: g2rev) rest

/-- Try the first separator with `w1` taking the first `j` characters of
the maximal whitespace run (longest first), then match the tail. -/
def tryW1 (run rest' : List Char) : Nat → Option (List Char × List Char)
  | 0 => none
  | 1 => none
  | j + 2 =>
    match tail2 [] (run.drop (j + 2) ++ rest') with
    | some r => some r
    | none => tryW1 run rest' (j + 1)

/-- Scan for the full row pattern anchored at the start of the line:
grow `$1` one character at a time (shortest first, never across `'\n'`),
and after each character try the first separator and the tail.
Returns `($1, $2, $3)`. -/
def row3go : List Char → List Char → Option (List Char × List Char × List Char)
  | _, [] => none
  | g1rev, c :: rest =>
    if c = '\n' then none
    else
      let p := spanWS rest
      match tryW1 p.1 p.2 p.1.length with
      | some r => some ((c :: g1rev).reverse, r.1, r.2)
      | none => row3go (c :: g1rev) rest

/-- Capture groups of `^(.+?)\s{2,}(.+?)\s{2,}(.+?)$` on a line, if the
line matches. -/
def row3 (l : List Char) : Option (List Char × List Char × List Char) :=
  row3go [] l

/-! ### Candidates and extraction -/

/-- The `ScummGameMatch` struct of the source. -/
structure ScummGameMatch where
  GameID : List Char
  Description : List Char
  Directory : List Char
  deriving DecidableEq

/-- Default value used only for out-of-range list access in statements. -/
def dflt : ScummGameMatch := ⟨[], [], []⟩

/-- Per-row extraction (lines 125-137 of `src/main.go`): each of the
three `ReplaceAllString` calls yields the corresponding capture group on
a match and the unchanged line otherwise; a row with any empty field is
discarded. -/
def rowCand (l : List Char) : Option ScummGameMatch :=
  let f := match row3 l with
    | some r => r
    | none => (l, l, l)
  if f.1 = [] ∨ f.2.1 = [] ∨ f.2.2 = [] then none
  else some ⟨f.1, f.2.1, f.2.2⟩

/-- Scan for the first rule line; every line strictly after it is fed to
`rowCand` (lines 116-143 of `src/main.go`). -/
def extractRows : List (List Char) → List ScummGameMatch
  | [] => []
  | l :: rest => if ruleLine l then rest.filterMap rowCand else extractRows rest

/-- The sentinel substring checked first (line 84 of `src/main.go`). -/
def sentinelL : List Char := strL "WARNING: ScummVM could not find any game in"

/-- The CRLF separator. -/
def crlfL : List Char := strL "\r\n"

/-- Line-terminator detection (lines 96-99 of `src/main.go`). -/
def eolOf (s : List Char) : List Char :=
  if containsL crlfL s then crlfL else ['\n']

/-- The split of the output into lines (line 102 of `src/main.go`). -/
def linesOf (s : List Char) : List (List Char) := splitOnL (eolOf s) s

/-- The candidate slice built by the source from the raw output. -/
def candidatesOf (s : List Char) : List ScummGameMatch :=
  extractRows (linesOf s)

/-! ### Similarity (modelled from the spec) -/

/-- Modelled from the spec: Levenshtein edit distance with insertion
cost 1, deletion cost 1 and substitution cost 2 (spec §4.3), the metric
configured at lines 157-161 of `src/main.go`; the `strutil`/`metrics`
library implementing it is not part of the repository. -/
def levDist : List Char → List Char → Nat
  | [], ys => ys.length
  | x :: xs, [] => (x :: xs).length
  | x :: xs, y :: ys =>
    min (min (levDist xs (y :: ys) + 1) (levDist (x :: xs) ys + 1))
      (levDist xs ys + (if x = y then 0 else 2))
  termination_by xs ys => xs.length + ys.length
  decreasing_by all_goals simp +arith [List.length_cons]

/-- Modelled from the spec: `strutil.Similarity` with the configured
Levenshtein metric — case-insensitive comparison, normalised as
`1 - distance / maxLen` against the longer input's length and clamped to
`[0, 1]` (spec §4.3); computed over `ℚ`.  The library itself is not part
of the repository. -/
def strutilSimilarity (a b : List Char) : ℚ :=
  let a' := a.map Char.toLower
  let b' := b.map Char.toLower
  let m := max a'.length b'.length
  if m = 0 then 1
  else max 0 (1 - (levDist a' b' : ℚ) / (m : ℚ))

/-! ### Disambiguation loop -/

/-- Go `filepath.Base` with the POSIX separator `'/'` (line 175 of
`src/main.go`): empty path gives `"."`, trailing separators are removed,
the last element is returned, and an all-separator path gives `"/"`. -/
def filepathBase (p : List Char) : List Char :=
  if p = [] then ['.']
  else
    let q := p.reverse.dropWhile (fun c => c = '/')
    if q = [] then ['/']
    else (q.takeWhile (fun c => c ≠ '/')).reverse

/-- The score the loop compares for a candidate: the similarity of the
stemmed description and the stemmed base directory, or 0 when either
stemming call fails (the loop then skips the candidate, which is
equivalent against the non-negative running best). -/
def effScore (stem : List Char → Option (List Char)) (c : ScummGameMatch) : ℚ :=
  match stem c.Description with
  | none => 0
  | some sd =>
    match stem (filepathBase c.Directory) with
    | none => 0
    | some sb => strutilSimilarity sd sb

/-- The selection loop of lines 167-190 of `src/main.go`: running pair
`(closestMatchIndex, closestMatchDistance)` starting at `(0, 0)`, with a
strictly-greater update, skipping candidates whose stemming fails. -/
def scanBest (stem : List Char → Option (List Char)) :
    List ScummGameMatch → Nat → Nat × ℚ → Nat × ℚ
  | [], _, acc => acc
  | c :: rest, i, acc =>
    match stem c.Description with
    | none => scanBest stem rest (i + 1) acc
    | some sd =>
      match stem (filepathBase c.Directory) with
      | none => scanBest stem rest (i + 1) acc
      | some sb =>
        let sc := strutilSimilarity sd sb
        if acc.2 < sc then scanBest stem rest (i + 1) (i, sc)
        else scanBest stem rest (i + 1) acc

/-- The candidate returned by the loop (line 193 of `src/main.go`). -/
def pickBest (stem : List Char → Option (List Char))
    (cs : List ScummGameMatch) : ScummGameMatch :=
  cs.getD (scanBest stem cs 0 (0, 0)).1 dflt

/-! ### The parser -/

/-- The three failures of `parseScummvmOutput`, in the spec's taxonomy
(§7): `notFound` is the error of line 86, `noTableFound` the error of
line 92, and `emptyCandidateSet` the error of line 148 of
`src/main.go`. -/
inductive ParseError where
  | notFound
  | noTableFound
  | emptyCandidateSet
  deriving DecidableEq

/-- `parseScummvmOutput` (lines 82-194 of `src/main.go`), parametrized
by the stemming function. -/
def parseScummvmOutput (stem : List Char → Option (List Char))
    (s : List Char) : Except ParseError (List Char × List Char) :=
  if containsL sentinelL s then .error .notFound
  else if headerScan s then
    match candidatesOf s with
    | [] => .error .emptyCandidateSet
    | [c] => .ok (c.GameID, c.Description)
    | c1 :: c2 :: rest =>
      let w := pickBest stem (c1 :: c2 :: rest)
      .ok (w.GameID, w.Description)
  else .error .noTableFound

/-! ### Auxiliary definitions used only to state claims -/

/-- Whitespace class of Go's `unicode.IsSpace` over the Latin-1 range,
as used by `strings.TrimSpace`. -/
def isSpaceGo (c : Char) : Bool :=
  decide (c = ' ' ∨ c = '\t' ∨ c = '\n' ∨ c = '\x0B' ∨ c = '\x0C' ∨
    c = '\r' ∨ c = '\x85' ∨ c = '\xA0')

/-- Modelled from the spec: "empty after trimming whitespace" (claim on
the Candidate invariant).  The source itself never trims fields; this
embeds Go `strings.TrimSpace`, used only to state that claim. -/
def trimWS (l : List Char) : List Char :=
  ((l.dropWhile isSpaceGo).reverse.dropWhile isSpaceGo).reverse

/-- Replace every `'\n'` by `"\r\n"`.  For a list of CR/LF-free lines,
joining with CRLF is `expand` of joining with LF; used to relate the two
line-ending conventions. -/
def expand : List Char → List Char
  | [] => []
  | c :: t => if c = '\n' then '\r' :: '\n' :: expand t else c :: expand t

/-- No two consecutive whitespace characters anywhere in the list
(so the list contains no `\s{2,}` separator start). -/
def noDoubleWS : List Char → Bool
  | [] => true
  | [_] => true
  | c1 :: c2 :: t => (!(isWS c1 && isWS c2)) && noDoubleWS (c2 :: t)

/-- The last character, if any, is not whitespace. -/
def lastNonWS (l : List Char) : Bool :=
  match l.getLast? with
  | none => true
  | some x => !isWS x

/-- The first character, if any, is not whitespace. -/
def headNonWS (l : List Char) : Bool :=
  match l.head? with
  | none => true
  | some x => !isWS x

/-- A two-candidate slice used by witnesses of the disambiguator
claims. -/
def wCands : List ScummGameMatch :=
  [⟨strL "a:x", strL "Game A", strL "/r/pa"⟩,
   ⟨strL "b:y", strL "Game B", strL "/r/pb"⟩]

/-- A stemming function that always fails, used by witnesses. -/
def stemNone : List Char → Option (List Char) := fun _ => none

end Scummer

namespace Scummer

/-! ### Basic extraction lemmas -/

/-- If no line is a rule line, the scan finds no table start and the
candidate slice stays empty. -/
theorem extractRows_eq_nil (lines : List (List Char))
    (h : ∀ l ∈ lines, ruleLine l = false) : extractRows lines = [] := by
  induction lines with
  | nil => rfl
  | cons l rest ih =>
    simp only [extractRows]
    rw [h l (List.mem_cons_self l rest)]
    simp only [Bool.false_eq_true, if_false]
    exact ih fun l' hl' => h l' (List.mem_cons_of_mem _ hl')

/-- Every extracted candidate comes from some line through `rowCand`. -/
theorem extractRows_mem (c : ScummGameMatch) :
    ∀ lines : List (List Char), c ∈ extractRows lines → ∃ l, rowCand l = some c := by
  intro lines
  induction lines with
  | nil => intro h; cases h
  | cons l rest ih =>
    intro h
    simp only [extractRows] at h
    by_cases hr : ruleLine l = true
    · rw [if_pos hr] at h
      obtain ⟨l', _, hl'⟩ := List.mem_filterMap.mp h
      exact ⟨l', hl'⟩
    · rw [if_neg hr] at h
      exact ih h

/-- A row accepted by `rowCand` has three non-empty fields. -/
theorem rowCand_fields (l : List Char) (c : ScummGameMatch)
    (h : rowCand l = some c) :
    c.GameID ≠ [] ∧ c.Description ≠ [] ∧ c.Directory ≠ [] := by
  rcases hrow : row3 l with _ | r <;> simp only [rowCand, hrow] at h <;>
    split at h
  case _ hcond => cases h
  case _ hcond =>
    cases h
    push_neg at hcond
    exact hcond
  case _ hcond => cases h
  case _ hcond =>
    cases h
    push_neg at hcond
    exact hcond

end Scummer

namespace Scummer

/-! ### Claim C2: sentinel precedence -/

/-- Claim C2: if the input contains the not-found sentinel phrase,
parsing fails immediately with the `NotFound` failure, for every stemmer
and regardless of any table present in the text. -/
theorem claim_c2_sentinel_precedence (stem : List Char → Option (List Char))
    (s : List Char) (h : containsL sentinelL s = true) :
    parseScummvmOutput stem s = .error .notFound := by
  simp [parseScummvmOutput, h]

/-- Witness for C2: an input that contains the sentinel and also a
well-formed header, rule line and candidate row still yields
`NotFound`. -/
theorem claim_c2_witness :
    containsL sentinelL
      (strL "WARNING: ScummVM could not find any game in /g\nGameID  Description  Full Path\n--- --- ---\na:b  Game X  /g/x") = true ∧
    parseScummvmOutput (fun l => some l)
      (strL "WARNING: ScummVM could not find any game in /g\nGameID  Description  Full Path\n--- --- ---\na:b  Game X  /g/x") = .error .notFound :=
  ⟨by decide, claim_c2_sentinel_precedence _ _ (by decide)⟩

/-! ### Claim C3: single-candidate passthrough -/

/-- Claim C3: when extraction yields exactly one candidate, the parser
returns that candidate's identifier and description verbatim, for every
stemming function — in particular the result does not depend on
normalization or scoring, which the code never reaches on this path. -/
theorem claim_c3_single_passthrough (s : List Char) (c : ScummGameMatch)
    (h1 : containsL sentinelL s = false) (h2 : headerScan s = true)
    (h3 : candidatesOf s = [c]) :
    ∀ stem, parseScummvmOutput stem s = .ok (c.GameID, c.Description) := by
  intro stem
  simp [parseScummvmOutput, h1, h2, h3]

/-- Witness for C3 (spec Scenario B): one row after the rule line is
returned verbatim. -/
theorem claim_c3_witness :
    containsL sentinelL (strL "GameID  Description  Full Path\n--- --- ---\ns:l  Loom (VGA)  /x/L/") = false ∧
    headerScan (strL "GameID  Description  Full Path\n--- --- ---\ns:l  Loom (VGA)  /x/L/") = true ∧
    candidatesOf (strL "GameID  Description  Full Path\n--- --- ---\ns:l  Loom (VGA)  /x/L/")
      = [⟨strL "s:l", strL "Loom (VGA)", strL "/x/L/"⟩] ∧
    parseScummvmOutput (fun l => some l)
      (strL "GameID  Description  Full Path\n--- --- ---\ns:l  Loom (VGA)  /x/L/")
      = .ok (strL "s:l", strL "Loom (VGA)") :=
  ⟨by decide, by decide, by decide,
    claim_c3_single_passthrough _ ⟨strL "s:l", strL "Loom (VGA)", strL "/x/L/"⟩
      (by decide) (by decide) (by decide) _⟩

end Scummer

namespace Scummer

/-! ### Claim C5: missing header or missing rule line -/

/-- Counterexample to claim C5 as stated: an input without the sentinel
whose header phrase is present but which has no dash-rule line fails
with the `EmptyCandidateSet` error of line 148 of `src/main.go` (the
same "slice is empty" error used for a table with no valid rows), not
with the `NoTableFound` error of line 92. -/
theorem claim_c5_counterexample :
    containsL sentinelL (strL "GameID Description Full Path") = false ∧
    headerScan (strL "GameID Description Full Path") = true ∧
    (∀ l ∈ linesOf (strL "GameID Description Full Path"), ruleLine l = false) ∧
    parseScummvmOutput (fun l => some l) (strL "GameID Description Full Path")
      = .error .emptyCandidateSet ∧
    parseScummvmOutput (fun l => some l) (strL "GameID Description Full Path")
      ≠ .error .noTableFound := by
  refine ⟨by decide, by decide, by decide, rfl, ?_⟩
  intro h
  rw [show parseScummvmOutput (fun l => some l) (strL "GameID Description Full Path")
      = .error .emptyCandidateSet from rfl] at h
  simp at h

/-- Claim C5 amended: for inputs without the sentinel, an absent header
phrase yields the `NoTableFound` failure, while a present header with no
dash-rule line yields the `EmptyCandidateSet` failure (the code returns
the same "slice is empty" error as for a table with no valid rows). -/
theorem claim_c5_amended (stem : List Char → Option (List Char)) (s : List Char)
    (h1 : containsL sentinelL s = false) :
    (headerScan s = false → parseScummvmOutput stem s = .error .noTableFound) ∧
    (headerScan s = true → (∀ l ∈ linesOf s, ruleLine l = false) →
      parseScummvmOutput stem s = .error .emptyCandidateSet) := by
  constructor
  · intro h2
    simp [parseScummvmOutput, h1, h2]
  · intro h2 h3
    have hc : candidatesOf s = [] := by
      unfold candidatesOf
      exact extractRows_eq_nil _ h3
    simp [parseScummvmOutput, h1, h2, hc]

/-- Witness for the amended C5, at both a header-free input and a
rule-line-free input. -/
theorem claim_c5_witness :
    containsL sentinelL (strL "nothing here") = false ∧
    headerScan (strL "nothing here") = false ∧
    parseScummvmOutput (fun l => some l) (strL "nothing here") = .error .noTableFound ∧
    containsL sentinelL (strL "GameID Description Full Path") = false ∧
    headerScan (strL "GameID Description Full Path") = true ∧
    parseScummvmOutput (fun l => some l) (strL "GameID Description Full Path")
      = .error .emptyCandidateSet :=
  ⟨by decide, by decide,
    (claim_c5_amended (fun l => some l) _ (by decide)).1 (by decide),
    by decide, by decide,
    (claim_c5_amended (fun l => some l) _ (by decide)).2 (by decide) (by decide)⟩

/-! ### Claim C9: the candidate field invariant -/

/-- Counterexample to claim C9 as stated: on this input the extracted
candidate set contains a candidate whose `GameID` field is the single
space `" "`, which is empty after trimming whitespace — the row is not
discarded, because the source compares the raw fields against the empty
string without trimming. -/
theorem claim_c9_counterexample :
    candidatesOf (strL "GameID Description Full Path\n--- --- ---\n   a  b  c")
      = [⟨[' '], ['a'], strL "b  c"⟩] ∧
    trimWS [' '] = [] := by
  exact ⟨by decide, by decide⟩

/-- Claim C9 amended: every extracted candidate has all three fields
non-empty as raw strings (rows with an empty extracted field are
silently discarded during extraction), but a field may consist entirely
of whitespace, so fields need not be non-empty after trimming. -/
theorem claim_c9_amended (s : List Char) (c : ScummGameMatch)
    (h : c ∈ candidatesOf s) :
    c.GameID ≠ [] ∧ c.Description ≠ [] ∧ c.Directory ≠ [] := by
  unfold candidatesOf at h
  obtain ⟨l, hl⟩ := extractRows_mem c (linesOf s) h
  exact rowCand_fields l c hl

/-- Witness for the amended C9 at a concrete extracted candidate. -/
theorem claim_c9_witness :
    (⟨strL "s:l", strL "Loom (VGA)", strL "/x/L/"⟩ : ScummGameMatch) ∈
      candidatesOf (strL "GameID  Description  Full Path\n--- --- ---\ns:l  Loom (VGA)  /x/L/") ∧
    strL "s:l" ≠ [] ∧ strL "Loom (VGA)" ≠ [] ∧ strL "/x/L/" ≠ [] :=
  ⟨by decide,
    claim_c9_amended (strL "GameID  Description  Full Path\n--- --- ---\ns:l  Loom (VGA)  /x/L/")
      ⟨strL "s:l", strL "Loom (VGA)", strL "/x/L/"⟩ (by decide)⟩

/-! ### Claim C10: non-matching rows are kept whole -/

/-- Claim C10: a non-empty line after the rule line that does not match
the three-field row pattern still produces a candidate — all three
`ReplaceAllString` calls return the line unchanged, so its `GameID`,
`Description` and `Directory` all equal the entire line, and the
extractor appends it. -/
theorem claim_c10_unmatched_row_kept (l : List Char)
    (h1 : l ≠ []) (h2 : row3 l = none) :
    rowCand l = some ⟨l, l, l⟩ ∧
    extractRows [strL "--- --- ---", l] = [⟨l, l, l⟩] := by
  have hr : rowCand l = some ⟨l, l, l⟩ := by
    simp only [rowCand, h2]
    rw [if_neg (by simp [h1])]
  refine ⟨hr, ?_⟩
  have hrule : ruleLine (strL "--- --- ---") = true := by decide
  simp [extractRows, hrule, hr]

/-- Witness for C10: the line `"hello world"` (single internal space, so
no `\s{2,}` separator) becomes a candidate with all three fields equal
to the whole line. -/
theorem claim_c10_witness :
    (strL "hello world" ≠ []) ∧ row3 (strL "hello world") = none ∧
    extractRows [strL "--- --- ---", strL "hello world"]
      = [⟨strL "hello world", strL "hello world", strL "hello world"⟩] :=
  ⟨by decide, by decide,
    (claim_c10_unmatched_row_kept (strL "hello world") (by decide) (by decide)).2⟩

end Scummer

namespace Scummer

/-! ### Properties of the disambiguation loop -/

/-- The modelled similarity is never negative. -/
theorem strutilSimilarity_nonneg (a b : List Char) : 0 ≤ strutilSimilarity a b := by
  simp only [strutilSimilarity]
  split
  · norm_num
  · exact le_max_left 0 _

/-- The loop score of a candidate is never negative. -/
theorem effScore_nonneg (stem : List Char → Option (List Char))
    (c : ScummGameMatch) : 0 ≤ effScore stem c := by
  rcases h1 : stem c.Description with _ | sd
  · simp [effScore, h1]
  · rcases h2 : stem (filepathBase c.Directory) with _ | sb
    · simp [effScore, h1, h2]
    · simpa [effScore, h1, h2] using strutilSimilarity_nonneg sd sb

/-- One step of the loop is a strictly-greater comparison against
`effScore` — skipping a candidate whose stemming fails is equivalent to
comparing its zero score against the non-negative running best. -/
theorem scanBest_cons (stem : List Char → Option (List Char))
    (c : ScummGameMatch) (rest : List ScummGameMatch) (i : Nat)
    (acc : Nat × ℚ) (h : 0 ≤ acc.2) :
    scanBest stem (c :: rest) i acc =
      if acc.2 < effScore stem c then
        scanBest stem rest (i + 1) (i, effScore stem c)
      else scanBest stem rest (i + 1) acc := by
  rcases h1 : stem c.Description with _ | sd
  · rw [show effScore stem c = 0 by simp [effScore, h1]]
    rw [if_neg (not_lt.mpr h)]
    simp [scanBest, h1]
  · rcases h2 : stem (filepathBase c.Directory) with _ | sb
    · rw [show effScore stem c = 0 by simp [effScore, h1, h2]]
      rw [if_neg (not_lt.mpr h)]
      simp [scanBest, h1, h2]
    · rw [show effScore stem c = strutilSimilarity sd sb by simp [effScore, h1, h2]]
      simp [scanBest, h1, h2]

/-- The running best never decreases. -/
theorem scanBest_mono (stem : List Char → Option (List Char)) :
    ∀ (cs : List ScummGameMatch) (i : Nat) (acc : Nat × ℚ), 0 ≤ acc.2 →
      acc.2 ≤ (scanBest stem cs i acc).2 := by
  intro cs
  induction cs with
  | nil => intro i acc h; simp [scanBest]
  | cons c rest ih =>
    intro i acc h
    rw [scanBest_cons stem c rest i acc h]
    by_cases hlt : acc.2 < effScore stem c
    · rw [if_pos hlt]
      exact le_trans (le_of_lt hlt) (ih (i + 1) (i, effScore stem c) (effScore_nonneg stem c))
    · rw [if_neg hlt]
      exact ih (i + 1) acc h

/-- Every candidate score is bounded by the final best score. -/
theorem scanBest_ge_all (stem : List Char → Option (List Char)) :
    ∀ (cs : List ScummGameMatch) (i : Nat) (acc : Nat × ℚ), 0 ≤ acc.2 →
      ∀ k, k < cs.length →
        effScore stem (cs.getD k dflt) ≤ (scanBest stem cs i acc).2 := by
  intro cs
  induction cs with
  | nil => intro i acc h k hk; simp at hk
  | cons c rest ih =>
    intro i acc h k hk
    rw [scanBest_cons stem c rest i acc h]
    by_cases hlt : acc.2 < effScore stem c
    · rw [if_pos hlt]
      match k with
      | 0 =>
        simpa using scanBest_mono stem rest (i + 1) (i, effScore stem c)
          (effScore_nonneg stem c)
      | k + 1 =>
        have hk' : k < rest.length := by simpa using hk
        simpa using ih (i + 1) (i, effScore stem c) (effScore_nonneg stem c) k hk'
    · rw [if_neg hlt]
      match k with
      | 0 =>
        have h2 := scanBest_mono stem rest (i + 1) acc h
        simpa using le_trans (not_lt.mp hlt) h2
      | k + 1 =>
        have hk' : k < rest.length := by simpa using hk
        simpa using ih (i + 1) acc h k hk'

/-- The final state either is the initial one, or records the position
and score of a candidate that strictly beat the initial best. -/
theorem scanBest_attained (stem : List Char → Option (List Char)) :
    ∀ (cs : List ScummGameMatch) (i : Nat) (acc : Nat × ℚ), 0 ≤ acc.2 →
      scanBest stem cs i acc = acc ∨
      ∃ k, k < cs.length ∧
        scanBest stem cs i acc = (i + k, effScore stem (cs.getD k dflt)) ∧
        acc.2 < effScore stem (cs.getD k dflt) := by
  intro cs
  induction cs with
  | nil => intro i acc h; left; rfl
  | cons c rest ih =>
    intro i acc h
    rw [scanBest_cons stem c rest i acc h]
    by_cases hlt : acc.2 < effScore stem c
    · rw [if_pos hlt]
      rcases ih (i + 1) (i, effScore stem c) (effScore_nonneg stem c)
        with heq | ⟨k, hk, heq, hgt⟩
      · right
        exact ⟨0, by simp, by simpa using heq, by simpa using hlt⟩
      · right
        refine ⟨k + 1, by simpa using hk, ?_, ?_⟩
        · have harith : i + 1 + k = i + (k + 1) := by omega
          rw [heq, harith]
          simp
        · simpa using lt_trans hlt hgt
    · rw [if_neg hlt]
      rcases ih (i + 1) acc h with heq | ⟨k, hk, heq, hgt⟩
      · left
        exact heq
      · right
        refine ⟨k + 1, by simpa using hk, ?_, by simpa using hgt⟩
        have harith : i + 1 + k = i + (k + 1) := by omega
        rw [heq, harith]
        simp

/-- A candidate strictly before the final index has a strictly smaller
score than the final best — ties never displace an earlier winner. -/
theorem scanBest_first (stem : List Char → Option (List Char)) :
    ∀ (cs : List ScummGameMatch) (i : Nat) (acc : Nat × ℚ),
      0 ≤ acc.2 → acc.1 ≤ i →
      ∀ k, k < cs.length → i + k < (scanBest stem cs i acc).1 →
        effScore stem (cs.getD k dflt) < (scanBest stem cs i acc).2 := by
  intro cs
  induction cs with
  | nil => intro i acc h hbi k hk; simp at hk
  | cons c rest ih =>
    intro i acc h hbi k hk hpos
    rw [scanBest_cons stem c rest i acc h] at hpos ⊢
    by_cases hup : acc.2 < effScore stem c
    · rw [if_pos hup] at hpos ⊢
      match k with
      | 0 =>
        rcases scanBest_attained stem rest (i + 1) (i, effScore stem c)
            (effScore_nonneg stem c) with heq | ⟨k', hk', heq, hgt⟩
        · rw [heq] at hpos
          simp at hpos
        · rw [heq] at hpos ⊢
          simpa using hgt
      | k + 1 =>
        have hk' : k < rest.length := by simpa using hk
        have hpos' : (i + 1) + k < (scanBest stem rest (i + 1) (i, effScore stem c)).1 := by
          have harith : i + 1 + k = i + (k + 1) := by omega
          rw [harith]
          exact hpos
        simpa using ih (i + 1) (i, effScore stem c) (effScore_nonneg stem c)
          (Nat.le_succ i) k hk' hpos'
    · rw [if_neg hup] at hpos ⊢
      match k with
      | 0 =>
        rcases scanBest_attained stem rest (i + 1) acc h with heq | ⟨k', hk', heq, hgt⟩
        · rw [heq] at hpos
          simp at hpos
          omega
        · rw [heq] at hpos ⊢
          simpa using lt_of_le_of_lt (not_lt.mp hup) hgt
      | k + 1 =>
        have hk' : k < rest.length := by simpa using hk
        have hpos' : (i + 1) + k < (scanBest stem rest (i + 1) acc).1 := by
          have harith : i + 1 + k = i + (k + 1) := by omega
          rw [harith]
          exact hpos
        simpa using ih (i + 1) acc h (le_trans hbi (Nat.le_succ i)) k hk' hpos'

end Scummer

namespace Scummer

/-! ### Claim C1: first strict argmax -/

/-- Claim C1: with two or more candidates, the disambiguator returns
the candidate at the index found by the scan, that index is in range,
its score (`effScore`, the similarity of the stemmed description and
stemmed base directory, 0 for a candidate skipped because stemming
fails) is greatest among all candidates, and every candidate at a
strictly lower original index has a strictly smaller score — so on
equal scores the earlier candidate wins. -/
theorem claim_c1_first_strict_argmax (stem : List Char → Option (List Char))
    (cs : List ScummGameMatch) (h2 : 2 ≤ cs.length) :
    pickBest stem cs = cs.getD (scanBest stem cs 0 (0, 0)).1 dflt ∧
    (scanBest stem cs 0 (0, 0)).1 < cs.length ∧
    (∀ k, k < cs.length →
      effScore stem (cs.getD k dflt) ≤
        effScore stem (cs.getD (scanBest stem cs 0 (0, 0)).1 dflt)) ∧
    (∀ k, k < (scanBest stem cs 0 (0, 0)).1 →
      effScore stem (cs.getD k dflt) <
        effScore stem (cs.getD (scanBest stem cs 0 (0, 0)).1 dflt)) := by
  have h0 : (0 : ℚ) ≤ ((0, (0 : ℚ)) : Nat × ℚ).2 := le_refl 0
  rcases scanBest_attained stem cs 0 (0, 0) h0 with heq | ⟨k, hk, heq, hgt⟩
  · have hres1 : (scanBest stem cs 0 (0, 0)).1 = 0 := by rw [heq]
    have hres2 : (scanBest stem cs 0 (0, 0)).2 = 0 := by rw [heq]
    have hpos : 0 < cs.length := lt_of_lt_of_le (by norm_num) h2
    have heff0 : effScore stem (cs.getD 0 dflt) = 0 :=
      le_antisymm (le_of_le_of_eq (scanBest_ge_all stem cs 0 (0, 0) h0 0 hpos) hres2)
        (effScore_nonneg _ _)
    refine ⟨rfl, ?_, ?_, ?_⟩
    · rw [hres1]
      exact hpos
    · intro k hk
      rw [hres1, heff0]
      exact le_of_le_of_eq (scanBest_ge_all stem cs 0 (0, 0) h0 k hk) hres2
    · intro k hk
      rw [hres1] at hk
      exact absurd hk (Nat.not_lt_zero k)
  · have hres1 : (scanBest stem cs 0 (0, 0)).1 = k := by rw [heq]; simp
    have hres2 : (scanBest stem cs 0 (0, 0)).2 = effScore stem (cs.getD k dflt) := by
      rw [heq]
    refine ⟨rfl, ?_, ?_, ?_⟩
    · rw [hres1]
      exact hk
    · intro k' hk'
      rw [hres1, ← hres2]
      exact scanBest_ge_all stem cs 0 (0, 0) h0 k' hk'
    · intro k' hk'
      rw [hres1] at hk'
      rw [hres1, ← hres2]
      exact scanBest_first stem cs 0 (0, 0) h0 (le_refl 0) k'
        (lt_trans hk' hk) (by rw [hres1]; simpa using hk')

/-- Witness for C1 at a two-candidate slice with a failing stemmer. -/
theorem claim_c1_witness :
    2 ≤ wCands.length ∧
    (pickBest stemNone wCands = wCands.getD (scanBest stemNone wCands 0 (0, 0)).1 dflt ∧
    (scanBest stemNone wCands 0 (0, 0)).1 < wCands.length ∧
    (∀ k, k < wCands.length →
      effScore stemNone (wCands.getD k dflt) ≤
        effScore stemNone (wCands.getD (scanBest stemNone wCands 0 (0, 0)).1 dflt)) ∧
    (∀ k, k < (scanBest stemNone wCands 0 (0, 0)).1 →
      effScore stemNone (wCands.getD k dflt) <
        effScore stemNone (wCands.getD (scanBest stemNone wCands 0 (0, 0)).1 dflt))) :=
  ⟨by decide, claim_c1_first_strict_argmax stemNone wCands (by decide)⟩

/-! ### Claim C6: all candidates skipped -/

/-- If stemming fails for every candidate, the loop never updates its
accumulator. -/
theorem scanBest_all_skipped (stem : List Char → Option (List Char)) :
    ∀ (cs : List ScummGameMatch) (i : Nat) (acc : Nat × ℚ),
      (∀ c ∈ cs, stem c.Description = none ∨ stem (filepathBase c.Directory) = none) →
      scanBest stem cs i acc = acc := by
  intro cs
  induction cs with
  | nil => intro i acc _; rfl
  | cons c rest ih =>
    intro i acc hall
    have htail : ∀ c' ∈ rest,
        stem c'.Description = none ∨ stem (filepathBase c'.Directory) = none :=
      fun c' hc' => hall c' (List.mem_cons_of_mem _ hc')
    rcases hall c (List.mem_cons_self c rest) with h1 | h2
    · rw [show scanBest stem (c :: rest) i acc = scanBest stem rest (i + 1) acc by
        simp [scanBest, h1]]
      exact ih (i + 1) acc htail
    · rcases h1 : stem c.Description with _ | sd
      · rw [show scanBest stem (c :: rest) i acc = scanBest stem rest (i + 1) acc by
          simp [scanBest, h1]]
        exact ih (i + 1) acc htail
      · rw [show scanBest stem (c :: rest) i acc = scanBest stem rest (i + 1) acc by
          simp [scanBest, h1, h2]]
        exact ih (i + 1) acc htail

/-- Claim C6: with two or more candidates, if stemming fails for every
candidate (so every candidate is skipped), the loop state stays at the
`(0, 0.0)` baseline and the disambiguator returns the candidate at
index 0. -/
theorem claim_c6_default_to_first (stem : List Char → Option (List Char))
    (cs : List ScummGameMatch) (_h2 : 2 ≤ cs.length)
    (hall : ∀ c ∈ cs, stem c.Description = none ∨ stem (filepathBase c.Directory) = none) :
    scanBest stem cs 0 (0, 0) = (0, 0) ∧ pickBest stem cs = cs.getD 0 dflt := by
  have h := scanBest_all_skipped stem cs 0 (0, 0) hall
  refine ⟨h, ?_⟩
  unfold pickBest
  rw [h]

/-- Witness for C6: the always-failing stemmer on two candidates. -/
theorem claim_c6_witness :
    2 ≤ wCands.length ∧
    (∀ c ∈ wCands, stemNone c.Description = none ∨
      stemNone (filepathBase c.Directory) = none) ∧
    (scanBest stemNone wCands 0 (0, 0) = (0, 0) ∧
      pickBest stemNone wCands = wCands.getD 0 dflt) :=
  ⟨by decide, fun c _ => Or.inl rfl,
    claim_c6_default_to_first stemNone wCands (by decide) (fun c _ => Or.inl rfl)⟩

end Scummer

namespace Scummer

/-! ### Claim C8: the similarity metric -/

/-- With the configured positive costs, the edit distance vanishes
exactly on equal strings. -/
theorem levDist_eq_zero_iff : ∀ (xs ys : List Char), levDist xs ys = 0 ↔ xs = ys := by
  intro xs
  induction xs with
  | nil =>
    intro ys
    cases ys with
    | nil => simp [levDist]
    | cons y ys' => simp [levDist]
  | cons x xs' ih =>
    intro ys
    cases ys with
    | nil => simp [levDist]
    | cons y ys' =>
      rw [show levDist (x :: xs') (y :: ys') =
          min (min (levDist xs' (y :: ys') + 1) (levDist (x :: xs') ys' + 1))
            (levDist xs' ys' + (if x = y then 0 else 2)) from by rw [levDist]]
      constructor
      · intro h
        rcases Nat.min_eq_zero_iff.mp h with h1 | h2
        · rcases Nat.min_eq_zero_iff.mp h1 with h3 | h4
          · omega
          · omega
        · by_cases hxy : x = y
          · rw [if_pos hxy, Nat.add_zero] at h2
            rw [hxy, (ih ys').mp h2]
          · rw [if_neg hxy] at h2
            omega
      · intro h
        cases h
        rw [if_pos rfl, Nat.add_zero, (ih xs').mpr rfl]
        simp

/-- Claim C8: the modelled similarity of any two strings is in
`[0, 1]`, and equals 1 exactly when the strings agree up to case; it is
by construction the `1 - distance/maxLen` normalisation, clamped, of the
Levenshtein distance with insertion cost 1, deletion cost 1 and
substitution cost 2, compared case-insensitively. -/
theorem claim_c8_similarity_bounds (a b : List Char) :
    0 ≤ strutilSimilarity a b ∧ strutilSimilarity a b ≤ 1 ∧
    (strutilSimilarity a b = 1 ↔ a.map Char.toLower = b.map Char.toLower) := by
  refine ⟨strutilSimilarity_nonneg a b, ?_, ?_⟩
  · simp only [strutilSimilarity]
    split
    · norm_num
    · apply max_le
      · norm_num
      · have hd : (0 : ℚ) ≤ (levDist (a.map Char.toLower) (b.map Char.toLower) : ℚ) /
            ((max (a.map Char.toLower).length (b.map Char.toLower).length : Nat) : ℚ) :=
          div_nonneg (Nat.cast_nonneg _) (Nat.cast_nonneg _)
        linarith
  · simp only [strutilSimilarity]
    split
    case isTrue h =>
      have ha : a.map Char.toLower = [] :=
        List.eq_nil_of_length_eq_zero (Nat.le_zero.mp (le_of_le_of_eq (le_max_left _ _) h))
      have hb : b.map Char.toLower = [] :=
        List.eq_nil_of_length_eq_zero (Nat.le_zero.mp (le_of_le_of_eq (le_max_right _ _) h))
      rw [ha, hb]
      simp
    case isFalse h =>
      have hm : ((max (a.map Char.toLower).length (b.map Char.toLower).length : Nat) : ℚ) ≠ 0 :=
        Nat.cast_ne_zero.mpr h
      constructor
      · intro heq
        rcases max_eq_iff.mp heq with ⟨h01, _⟩ | ⟨hx, _⟩
        · norm_num at h01
        · have hdz : (levDist (a.map Char.toLower) (b.map Char.toLower) : ℚ) /
              ((max (a.map Char.toLower).length (b.map Char.toLower).length : Nat) : ℚ) = 0 := by
            linarith
          have : (levDist (a.map Char.toLower) (b.map Char.toLower) : ℚ) = 0 := by
            rcases div_eq_zero_iff.mp hdz with h' | h'
            · exact h'
            · exact absurd h' hm
          exact (levDist_eq_zero_iff _ _).mp (Nat.cast_eq_zero.mp this)
      · intro heq
        rw [show levDist (a.map Char.toLower) (b.map Char.toLower) = 0 from
          (levDist_eq_zero_iff _ _).mpr heq]
        norm_num

end Scummer

namespace Scummer

/-! ### Claim C4: row field splitting -/

/-- Scanning with `spanP` over a fully satisfying prefix stops exactly
at the first failing character. -/
theorem spanP_sat_append (p : Char → Bool) :
    ∀ (w : List Char) (b0 : Char) (rest : List Char),
      (∀ x ∈ w, p x = true) → p b0 = false →
      spanP p (w ++ b0 :: rest) = (w, b0 :: rest) := by
  intro w
  induction w with
  | nil =>
    intro b0 rest _ hb
    simp [spanP, hb]
  | cons x w' ih =>
    intro b0 rest hw hb
    have hx : p x = true := hw x (List.mem_cons_self _ _)
    have ihe := ih b0 rest (fun y hy => hw y (List.mem_cons_of_mem _ hy)) hb
    simp only [List.cons_append, spanP, hx, if_true, List.append_eq]
    rw [ihe]

/-- With a whitespace run shorter than 2 at the current position, no
separator can start here. -/
theorem trySep_short (rest : List Char) (h : (spanWS rest).1.length < 2) :
    trySep rest = none := by
  show tryG3 (spanWS rest).1 (spanWS rest).2 (spanWS rest).1.length = none
  rcases hlen : (spanWS rest).1.length with _ | n
  · rfl
  · have hn : n = 0 := by omega
    subst hn
    rfl

/-- With a whitespace run shorter than 2, the first separator cannot
start here either. -/
theorem tryW1_short (run rest' : List Char) (h : run.length < 2) :
    tryW1 run rest' run.length = none := by
  rcases hlen : run.length with _ | n
  · rfl
  · have hn : n = 0 := by omega
    subst hn
    rfl

/-- Taking the whole whitespace run as the separator succeeds when what
follows is a valid `$3`. -/
theorem tryG3_full (run rest : List Char) (h2 : 2 ≤ run.length)
    (hne : rest ≠ []) (hnl : '\n' ∉ rest) :
    tryG3 run rest run.length = some rest := by
  obtain ⟨j, hj⟩ : ∃ j, run.length = j + 2 := ⟨run.length - 2, by omega⟩
  have hd : run.drop (j + 2) = [] := by
    rw [← hj]
    exact List.drop_length run
  rw [hj]
  simp only [tryG3, hd, List.nil_append]
  rw [if_neg hne, if_neg hnl]

/-- Taking the whole whitespace run as the first separator succeeds
when the tail matches. -/
theorem tryW1_full (run rest' : List Char) (h2 : 2 ≤ run.length)
    (r : List Char × List Char) (h : tail2 [] rest' = some r) :
    tryW1 run rest' run.length = some r := by
  obtain ⟨j, hj⟩ : ∃ j, run.length = j + 2 := ⟨run.length - 2, by omega⟩
  have hd : run.drop (j + 2) = [] := by
    rw [← hj]
    exact List.drop_length run
  rw [hj]
  simp only [tryW1, hd, List.nil_append, h]

/-- Step of the `$2` scan when no separator starts after the current
character. -/
theorem tail2_step_cont (g2rev : List Char) (ch : Char) (rest : List Char)
    (hch : ch ≠ '\n') (hs : trySep rest = none) :
    tail2 g2rev (ch :: rest) = tail2 (ch :: g2rev) rest := by
  simp only [tail2, if_neg hch, hs]

/-- Step of the `$2` scan when a separator and `$3` complete the match
after the current character. -/
theorem tail2_step_done (g2rev : List Char) (ch : Char) (rest g3 : List Char)
    (hch : ch ≠ '\n') (hs : trySep rest = some g3) :
    tail2 g2rev (ch :: rest) = some ((ch :: g2rev).reverse, g3) := by
  simp only [tail2, if_neg hch, hs]

/-- Step of the `$1` scan when no first separator starts after the
current character. -/
theorem row3go_step_cont (g1rev : List Char) (ch : Char) (rest : List Char)
    (hch : ch ≠ '\n')
    (hw : tryW1 (spanWS rest).1 (spanWS rest).2 (spanWS rest).1.length = none) :
    row3go g1rev (ch :: rest) = row3go (ch :: g1rev) rest := by
  simp only [row3go, if_neg hch, hw]

/-- Step of the `$1` scan when the first separator and the tail
complete the match after the current character. -/
theorem row3go_step_done (g1rev : List Char) (ch : Char) (rest : List Char)
    (r : List Char × List Char) (hch : ch ≠ '\n')
    (hw : tryW1 (spanWS rest).1 (spanWS rest).2 (spanWS rest).1.length = some r) :
    row3go g1rev (ch :: rest) = some ((ch :: g1rev).reverse, r.1, r.2) := by
  simp only [row3go, if_neg hch, hw]

end Scummer

namespace Scummer

/-- Scanning `$2` across a field with no two consecutive whitespace
characters and a non-whitespace last character finds the separator
exactly at the field's end. -/
theorem tail2_fields (w2 c : List Char)
    (hw2 : ∀ x ∈ w2, isWS x = true) (hw2len : 2 ≤ w2.length)
    (hc : c ≠ []) (hnc : '\n' ∉ c) (hhc : headNonWS c = true) :
    ∀ (b g2rev : List Char), b ≠ [] → '\n' ∉ b → noDoubleWS b = true →
      lastNonWS b = true →
      tail2 g2rev (b ++ (w2 ++ c)) = some (g2rev.reverse ++ b, c) := by
  obtain ⟨c0, c', rfl⟩ := List.exists_cons_of_ne_nil hc
  have hc0 : isWS c0 = false := by simpa [headNonWS] using hhc
  have hsep : trySep (w2 ++ c0 :: c') = some (c0 :: c') := by
    show tryG3 (spanWS (w2 ++ c0 :: c')).1 (spanWS (w2 ++ c0 :: c')).2
      (spanWS (w2 ++ c0 :: c')).1.length = some (c0 :: c')
    rw [show spanWS (w2 ++ c0 :: c') = (w2, c0 :: c') from
      spanP_sat_append isWS w2 c0 c' hw2 hc0]
    exact tryG3_full w2 (c0 :: c') hw2len (by simp) hnc
  intro b
  induction b with
  | nil =>
    intro g2rev hb _ _ _
    exact absurd rfl hb
  | cons x b' ih =>
    intro g2rev _ hnb hdb hlb
    have hx : x ≠ '\n' := by
      intro h
      exact hnb (by simp [h])
    cases b' with
    | nil =>
      show tail2 g2rev (x :: (w2 ++ c0 :: c')) = _
      rw [tail2_step_done g2rev x (w2 ++ c0 :: c') (c0 :: c') hx hsep]
      simp
    | cons y t =>
      have hnb' : '\n' ∉ y :: t := fun h => hnb (List.mem_cons_of_mem _ h)
      have hdb' : noDoubleWS (y :: t) = true := by
        simp only [noDoubleWS, Bool.and_eq_true] at hdb
        exact hdb.2
      have hlb' : lastNonWS (y :: t) = true := by
        unfold lastNonWS at hlb ⊢
        rw [List.getLast?_cons_cons] at hlb
        exact hlb
      have hstep : trySep ((y :: t) ++ (w2 ++ c0 :: c')) = none := by
        apply trySep_short
        by_cases hy : isWS y = true
        · cases t with
          | nil =>
            exfalso
            unfold lastNonWS at hlb
            rw [List.getLast?_cons_cons] at hlb
            simp [hy] at hlb
          | cons z t' =>
            have hz : isWS z = false := by
              simp only [noDoubleWS, Bool.and_eq_true] at hdb
              have h2 := hdb.2.1
              simpa [hy] using h2
            simp [spanWS, spanP, hy, hz]
        · have hy' : isWS y = false := by simpa using hy
          simp [spanWS, spanP, hy']
      show tail2 g2rev (x :: ((y :: t) ++ (w2 ++ c0 :: c'))) = _
      rw [tail2_step_cont g2rev x _ hx hstep]
      rw [ih (x :: g2rev) (by simp) hnb' hdb' hlb']
      simp

/-- Scanning `$1` across the identifier field finds the first separator
exactly at the field's end, and the whole row splits into the three
fields. -/
theorem row3go_fields (w1 b w2 c : List Char)
    (hw1 : ∀ x ∈ w1, isWS x = true) (hw1len : 2 ≤ w1.length)
    (hb : b ≠ []) (hnb : '\n' ∉ b) (hdb : noDoubleWS b = true)
    (hlb : lastNonWS b = true) (hhb : headNonWS b = true)
    (hw2 : ∀ x ∈ w2, isWS x = true) (hw2len : 2 ≤ w2.length)
    (hc : c ≠ []) (hnc : '\n' ∉ c) (hhc : headNonWS c = true) :
    ∀ (a g1rev : List Char), a ≠ [] → '\n' ∉ a → noDoubleWS a = true →
      lastNonWS a = true →
      row3go g1rev (a ++ (w1 ++ (b ++ (w2 ++ c)))) = some (g1rev.reverse ++ a, b, c) := by
  obtain ⟨b0, b', rfl⟩ := List.exists_cons_of_ne_nil hb
  have hb0 : isWS b0 = false := by simpa [headNonWS] using hhb
  have htail : tail2 [] ((b0 :: b') ++ (w2 ++ c)) = some (b0 :: b', c) := by
    simpa using tail2_fields w2 c hw2 hw2len hc hnc hhc (b0 :: b') []
      (by simp) hnb hdb hlb
  have hspan : spanWS (w1 ++ ((b0 :: b') ++ (w2 ++ c)))
      = (w1, (b0 :: b') ++ (w2 ++ c)) := by
    show spanP isWS (w1 ++ (b0 :: (b' ++ (w2 ++ c)))) = (w1, b0 :: (b' ++ (w2 ++ c)))
    exact spanP_sat_append isWS w1 b0 (b' ++ (w2 ++ c)) hw1 hb0
  have hw1try : tryW1 (spanWS (w1 ++ ((b0 :: b') ++ (w2 ++ c)))).1
      (spanWS (w1 ++ ((b0 :: b') ++ (w2 ++ c)))).2
      (spanWS (w1 ++ ((b0 :: b') ++ (w2 ++ c)))).1.length = some (b0 :: b', c) := by
    rw [hspan]
    exact tryW1_full w1 _ hw1len (b0 :: b', c) htail
  intro a
  induction a with
  | nil =>
    intro g1rev ha _ _ _
    exact absurd rfl ha
  | cons x a' ih =>
    intro g1rev _ hna hda hla
    have hx : x ≠ '\n' := by
      intro h
      exact hna (by simp [h])
    cases a' with
    | nil =>
      show row3go g1rev (x :: (w1 ++ ((b0 :: b') ++ (w2 ++ c)))) = _
      rw [row3go_step_done g1rev x _ (b0 :: b', c) hx hw1try]
      simp
    | cons y t =>
      have hna' : '\n' ∉ y :: t := fun h => hna (List.mem_cons_of_mem _ h)
      have hda' : noDoubleWS (y :: t) = true := by
        simp only [noDoubleWS, Bool.and_eq_true] at hda
        exact hda.2
      have hla' : lastNonWS (y :: t) = true := by
        unfold lastNonWS at hla ⊢
        rw [List.getLast?_cons_cons] at hla
        exact hla
      have hshort :
          (spanWS ((y :: t) ++ (w1 ++ ((b0 :: b') ++ (w2 ++ c))))).1.length < 2 := by
        by_cases hy : isWS y = true
        · cases t with
          | nil =>
            exfalso
            unfold lastNonWS at hla
            rw [List.getLast?_cons_cons] at hla
            simp [hy] at hla
          | cons z t' =>
            have hz : isWS z = false := by
              simp only [noDoubleWS, Bool.and_eq_true] at hda
              have h2 := hda.2.1
              simpa [hy] using h2
            simp [spanWS, spanP, hy, hz]
        · have hy' : isWS y = false := by simpa using hy
          simp [spanWS, spanP, hy']
      have hcont := tryW1_short
        (spanWS ((y :: t) ++ (w1 ++ ((b0 :: b') ++ (w2 ++ c))))).1
        (spanWS ((y :: t) ++ (w1 ++ ((b0 :: b') ++ (w2 ++ c))))).2 hshort
      show row3go g1rev (x :: ((y :: t) ++ (w1 ++ ((b0 :: b') ++ (w2 ++ c))))) = _
      rw [row3go_step_cont g1rev x _ hx hcont]
      rw [ih (x :: g1rev) (by simp) hna' hda' hla']
      simp

/-- Claim C4: a row consisting of an identifier, a description and a
path, separated by two runs of two-or-more whitespace characters (the
fields themselves starting and ending with non-whitespace, containing no
two adjacent whitespace characters — single embedded spaces allowed —
and no newline), is split by the extractor into exactly those three
fields: the identifier first, the whole description second — its single
embedded spaces never treated as separators — and the last
whitespace-run-delimited segment as the path. -/
theorem claim_c4_whitespace_run_split (a w1 b w2 c : List Char)
    (ha : a ≠ []) (hna : '\n' ∉ a) (hda : noDoubleWS a = true) (hla : lastNonWS a = true)
    (hw1 : ∀ x ∈ w1, isWS x = true) (hw1len : 2 ≤ w1.length)
    (hb : b ≠ []) (hnb : '\n' ∉ b) (hdb : noDoubleWS b = true) (hlb : lastNonWS b = true)
    (hhb : headNonWS b = true)
    (hw2 : ∀ x ∈ w2, isWS x = true) (hw2len : 2 ≤ w2.length)
    (hc : c ≠ []) (hnc : '\n' ∉ c) (hhc : headNonWS c = true) :
    row3 (a ++ (w1 ++ (b ++ (w2 ++ c)))) = some (a, b, c) ∧
    rowCand (a ++ (w1 ++ (b ++ (w2 ++ c)))) = some ⟨a, b, c⟩ := by
  have hrow : row3 (a ++ (w1 ++ (b ++ (w2 ++ c)))) = some (a, b, c) := by
    simpa [row3] using row3go_fields w1 b w2 c hw1 hw1len hb hnb hdb hlb hhb
      hw2 hw2len hc hnc hhc a [] ha hna hda hla
  refine ⟨hrow, ?_⟩
  simp only [rowCand, hrow]
  rw [if_neg (by simp [ha, hb, hc])]

/-- Witness for C4 at a Loom-style row with an embedded single space in
the description, a tab-space separator, and a space inside the path. -/
theorem claim_c4_witness :
    (strL "ab:c" ≠ [] ∧ '\n' ∉ strL "ab:c" ∧ noDoubleWS (strL "ab:c") = true ∧
      lastNonWS (strL "ab:c") = true) ∧
    ((∀ x ∈ strL "  ", isWS x = true) ∧ 2 ≤ (strL "  ").length) ∧
    (strL "Loom (VGA)" ≠ [] ∧ '\n' ∉ strL "Loom (VGA)" ∧
      noDoubleWS (strL "Loom (VGA)") = true ∧ lastNonWS (strL "Loom (VGA)") = true ∧
      headNonWS (strL "Loom (VGA)") = true) ∧
    ((∀ x ∈ strL "\t ", isWS x = true) ∧ 2 ≤ (strL "\t ").length) ∧
    (strL "/x y" ≠ [] ∧ '\n' ∉ strL "/x y" ∧ headNonWS (strL "/x y") = true) ∧
    row3 (strL "ab:c" ++ (strL "  " ++ (strL "Loom (VGA)" ++ (strL "\t " ++ strL "/x y"))))
      = some (strL "ab:c", strL "Loom (VGA)", strL "/x y") ∧
    rowCand (strL "ab:c" ++ (strL "  " ++ (strL "Loom (VGA)" ++ (strL "\t " ++ strL "/x y"))))
      = some ⟨strL "ab:c", strL "Loom (VGA)", strL "/x y"⟩ :=
  ⟨⟨by decide, by decide, by decide, by decide⟩,
    ⟨by decide, by decide⟩,
    ⟨by decide, by decide, by decide, by decide, by decide⟩,
    ⟨by decide, by decide⟩,
    ⟨by decide, by decide, by decide⟩,
    (claim_c4_whitespace_run_split (strL "ab:c") (strL "  ") (strL "Loom (VGA)")
      (strL "\t ") (strL "/x y") (by decide) (by decide) (by decide) (by decide)
      (by decide) (by decide) (by decide) (by decide) (by decide) (by decide)
      (by decide) (by decide) (by decide) (by decide) (by decide) (by decide)).1,
    (claim_c4_whitespace_run_split (strL "ab:c") (strL "  ") (strL "Loom (VGA)")
      (strL "\t ") (strL "/x y") (by decide) (by decide) (by decide) (by decide)
      (by decide) (by decide) (by decide) (by decide) (by decide) (by decide)
      (by decide) (by decide) (by decide) (by decide) (by decide) (by decide)).2⟩

end Scummer

namespace Scummer

/-! ### Lemmas for claim C7: CRLF expansion -/

/-- Expansion distributes over concatenation. -/
theorem expand_append : ∀ (a b : List Char), expand (a ++ b) = expand a ++ expand b := by
  intro a b
  induction a with
  | nil => rfl
  | cons c t ih =>
    show expand (c :: (t ++ b)) = expand (c :: t) ++ expand b
    by_cases hc : c = '\n' <;> simp [expand, hc, ih]

/-- Expansion fixes newline-free lists. -/
theorem expand_eq_self : ∀ (l : List Char), '\n' ∉ l → expand l = l := by
  intro l
  induction l with
  | nil => intro _; rfl
  | cons c t ih =>
    intro h
    have hc : c ≠ '\n' := fun hh => h (by simp [hh])
    simp [expand, hc, ih (fun hh => h (List.mem_cons_of_mem _ hh))]

/-- Expansion preserves emptiness. -/
theorem expand_eq_nil_iff (l : List Char) : expand l = [] ↔ l = [] := by
  cases l with
  | nil => simp [expand]
  | cons c t => by_cases hc : c = '\n' <;> simp [expand, hc]

/-- A CR/LF-free pattern is a prefix of an expanded list exactly when it
is a prefix of the original. -/
theorem prefixL_expand : ∀ (s p : List Char),
    (∀ ch ∈ p, ch ≠ '\n' ∧ ch ≠ '\r') →
    prefixL p (expand s) = prefixL p s := by
  intro s
  induction s with
  | nil => intro p _; rfl
  | cons c t ih =>
    intro p hp
    cases p with
    | nil => rfl
    | cons a p' =>
      have ha := hp a (by simp)
      by_cases hc : c = '\n'
      · subst hc
        show prefixL (a :: p') ('\r' :: '\n' :: expand t) = prefixL (a :: p') ('\n' :: t)
        rw [show prefixL (a :: p') ('\r' :: '\n' :: expand t) = false from by
          simp [prefixL, ha.2]]
        rw [show prefixL (a :: p') ('\n' :: t) = false from by
          simp [prefixL, ha.1]]
      · rw [show expand (c :: t) = c :: expand t from by simp [expand, hc]]
        by_cases hac : a = c
        · simp [prefixL, hac, ih p' (fun ch h => hp ch (List.mem_cons_of_mem _ h))]
        · simp [prefixL, hac]

/-- A non-empty CR/LF-free pattern occurs in an expanded list exactly
when it occurs in the original. -/
theorem containsL_expand (p : List Char) (hne : p ≠ [])
    (hp : ∀ ch ∈ p, ch ≠ '\n' ∧ ch ≠ '\r') :
    ∀ s : List Char, containsL p (expand s) = containsL p s := by
  obtain ⟨a, p', rfl⟩ := List.exists_cons_of_ne_nil hne
  have ha := hp a (by simp)
  intro s
  induction s with
  | nil => rfl
  | cons c t ih =>
    by_cases hc : c = '\n'
    · subst hc
      show containsL (a :: p') ('\r' :: '\n' :: expand t) = containsL (a :: p') ('\n' :: t)
      simp only [containsL]
      rw [show prefixL (a :: p') ('\r' :: '\n' :: expand t) = false from by
        simp [prefixL, ha.2]]
      rw [show prefixL (a :: p') ('\n' :: expand t) = false from by
        simp [prefixL, ha.1]]
      rw [show prefixL (a :: p') ('\n' :: t) = false from by
        simp [prefixL, ha.1]]
      simp [ih]
    · show containsL (a :: p') (expand (c :: t)) = containsL (a :: p') (c :: t)
      rw [show expand (c :: t) = c :: expand t from by simp [expand, hc]]
      simp only [containsL]
      rw [show prefixL (a :: p') (c :: expand t) = prefixL (a :: p') (c :: t) from by
        rw [show (c :: expand t : List Char) = expand (c :: t) from by simp [expand, hc]]
        exact prefixL_expand (c :: t) (a :: p') hp]
      rw [ih]

/-- An expanded list containing a newline contains the CRLF pair. -/
theorem containsL_crlf_expand : ∀ (s : List Char), '\n' ∈ s →
    containsL crlfL (expand s) = true := by
  intro s
  induction s with
  | nil => intro h; cases h
  | cons c t ih =>
    intro h
    by_cases hc : c = '\n'
    · subst hc
      show containsL crlfL ('\r' :: '\n' :: expand t) = true
      simp only [containsL]
      rw [show prefixL crlfL ('\r' :: '\n' :: expand t) = true from by
        show prefixL ('\r' :: '\n' :: []) ('\r' :: '\n' :: expand t) = true
        simp [prefixL]]
      simp
    · have ht : '\n' ∈ t := by
        rcases List.mem_cons.mp h with h1 | h2
        · exact absurd h1.symm hc
        · exact h2
      show containsL crlfL (expand (c :: t)) = true
      rw [show expand (c :: t) = c :: expand t from by simp [expand, hc]]
      simp only [containsL]
      rw [ih ht]
      simp

/-- A CR-free list does not contain the CRLF pair. -/
theorem containsL_crlf_none : ∀ (s : List Char), '\r' ∉ s →
    containsL crlfL s = false := by
  intro s
  induction s with
  | nil => intro _; rfl
  | cons c t ih =>
    intro h
    have hc : c ≠ '\r' := fun hh => h (by simp [hh])
    show containsL crlfL (c :: t) = false
    simp only [containsL]
    rw [show prefixL crlfL (c :: t) = false from by
      show prefixL ('\r' :: '\n' :: []) (c :: t) = false
      simp [prefixL, Ne.symm hc]]
    rw [ih (fun hh => h (List.mem_cons_of_mem _ hh))]
    rfl

/-- Dropping a CR/LF-free literal commutes with expansion. -/
theorem dropLit_expand : ∀ (lit s : List Char),
    (∀ ch ∈ lit, ch ≠ '\n' ∧ ch ≠ '\r') →
    dropLit lit (expand s) = (dropLit lit s).map expand := by
  intro lit
  induction lit with
  | nil => intro s _; rfl
  | cons a lit' ih =>
    intro s hp
    have ha := hp a (by simp)
    cases s with
    | nil => rfl
    | cons c t =>
      by_cases hc : c = '\n'
      · subst hc
        show dropLit (a :: lit') ('\r' :: '\n' :: expand t)
          = (dropLit (a :: lit') ('\n' :: t)).map expand
        rw [show dropLit (a :: lit') ('\r' :: '\n' :: expand t) = none from by
          simp [dropLit, ha.2]]
        rw [show dropLit (a :: lit') ('\n' :: t) = none from by
          simp [dropLit, ha.1]]
        rfl
      · rw [show expand (c :: t) = c :: expand t from by simp [expand, hc]]
        by_cases hac : a = c
        · simp [dropLit, hac, ih t (fun ch h => hp ch (List.mem_cons_of_mem _ h))]
        · simp [dropLit, hac]

/-- Spanning whitespace commutes with expansion (both CR and LF are
whitespace). -/
theorem spanWS_expand : ∀ (s : List Char),
    spanWS (expand s) = (expand (spanWS s).1, expand (spanWS s).2) := by
  have hr : isWS '\r' = true := by decide
  have hn : isWS '\n' = true := by decide
  intro s
  induction s with
  | nil => rfl
  | cons c t ih =>
    by_cases hc : c = '\n'
    · subst hc
      show spanWS ('\r' :: '\n' :: expand t) = _
      rw [show spanWS ('\r' :: '\n' :: expand t)
          = ('\r' :: '\n' :: (spanWS (expand t)).1, (spanWS (expand t)).2) from by
        simp [spanWS, spanP, hr, hn]]
      rw [ih]
      rw [show spanWS ('\n' :: t) = ('\n' :: (spanWS t).1, (spanWS t).2) from by
        simp [spanWS, spanP, hn]]
      simp [expand]
    · rw [show expand (c :: t) = c :: expand t from by simp [expand, hc]]
      by_cases hw : isWS c = true
      · rw [show spanWS (c :: expand t)
            = (c :: (spanWS (expand t)).1, (spanWS (expand t)).2) from by
          simp [spanWS, spanP, hw]]
        rw [ih]
        rw [show spanWS (c :: t) = (c :: (spanWS t).1, (spanWS t).2) from by
          simp [spanWS, spanP, hw]]
        simp [expand, hc]
      · have hw' : isWS c = false := by simpa using hw
        rw [show spanWS (c :: expand t) = ([], c :: expand t) from by
          simp [spanWS, spanP, hw']]
        rw [show spanWS (c :: t) = ([], c :: t) from by simp [spanWS, spanP, hw']]
        simp [expand, hc]

/-- A header match at an expanded position is a header match at the
original position. -/
theorem matchHeaderAt_expand (s : List Char) :
    matchHeaderAt (expand s) = matchHeaderAt s := by
  unfold matchHeaderAt
  rw [dropLit_expand gameIDL s (by decide)]
  rcases h1 : dropLit gameIDL s with _ | r1
  · rfl
  · simp only [Option.map_some']
    rw [spanWS_expand r1]
    by_cases hp1 : (spanWS r1).1 = []
    · simp [hp1, expand]
    · rw [if_neg (by simpa [expand_eq_nil_iff] using hp1), if_neg hp1]
      rw [dropLit_expand descriptionL (spanWS r1).2 (by decide)]
      rcases h2 : dropLit descriptionL (spanWS r1).2 with _ | r3
      · rfl
      · simp only [Option.map_some']
        rw [spanWS_expand r3]
        by_cases hp2 : (spanWS r3).1 = []
        · simp [hp2, expand]
        · rw [if_neg (by simpa [expand_eq_nil_iff] using hp2), if_neg hp2]
          rw [dropLit_expand fullPathL (spanWS r3).2 (by decide)]
          cases dropLit fullPathL (spanWS r3).2 <;> rfl

/-- The header pattern matches somewhere in an expanded text exactly
when it matches somewhere in the original. -/
theorem headerScan_expand : ∀ (s : List Char), headerScan (expand s) = headerScan s := by
  intro s
  induction s with
  | nil => rfl
  | cons c t ih =>
    by_cases hc : c = '\n'
    · subst hc
      show headerScan ('\r' :: '\n' :: expand t) = headerScan ('\n' :: t)
      simp only [headerScan]
      rw [show matchHeaderAt ('\r' :: '\n' :: expand t) = false from rfl]
      rw [show matchHeaderAt ('\n' :: expand t) = false from rfl]
      rw [show matchHeaderAt ('\n' :: t) = false from rfl]
      simp [ih]
    · show headerScan (expand (c :: t)) = headerScan (c :: t)
      rw [show expand (c :: t) = c :: expand t from by simp [expand, hc]]
      simp only [headerScan]
      rw [show matchHeaderAt (c :: expand t) = matchHeaderAt (c :: t) from by
        rw [show (c :: expand t : List Char) = expand (c :: t) from by simp [expand, hc]]
        exact matchHeaderAt_expand (c :: t)]
      rw [ih]

end Scummer

namespace Scummer

/-- A prefix test fails immediately on a wrong head character. -/
theorem prefixL_head_ne (s₀ : Char) (sep' : List Char) (c : Char) (t : List Char)
    (h : s₀ ≠ c) : prefixL (s₀ :: sep') (c :: t) = false := by
  simp [prefixL, h]

/-- Every list is a prefix of itself followed by anything. -/
theorem prefixL_self_append : ∀ (p r : List Char), prefixL p (p ++ r) = true := by
  intro p r
  induction p with
  | nil => rfl
  | cons a p' ih => simp [prefixL, ih]

/-- The separator is a prefix at a separator position. -/
theorem prefixL_cons_self_append (s₀ : Char) (sep' r : List Char) :
    prefixL (s₀ :: sep') (s₀ :: (sep' ++ r)) = true := by
  show prefixL (s₀ :: sep') ((s₀ :: sep') ++ r) = true
  exact prefixL_self_append _ _

/-- The split scanner ignores the fuel as long as it is at least the
length of the scanned list. -/
theorem splitOnAux_fuel (s₀ : Char) (sep' : List Char) :
    ∀ (f₁ : Nat) (l : List Char) (f₂ : Nat) (acc : List Char),
      l.length ≤ f₁ → l.length ≤ f₂ →
      splitOnAux s₀ sep' f₁ l acc = splitOnAux s₀ sep' f₂ l acc := by
  intro f₁
  induction f₁ with
  | zero =>
    intro l f₂ acc h₁ _
    have : l = [] := List.eq_nil_of_length_eq_zero (Nat.le_zero.mp h₁)
    subst this
    cases f₂ <;> rfl
  | succ f ih =>
    intro l f₂ acc h₁ h₂
    cases l with
    | nil => cases f₂ <;> rfl
    | cons c t =>
      rcases f₂ with _ | f₂'
      · simp at h₂
      · by_cases hp : prefixL (s₀ :: sep') (c :: t) = true
        · rw [show splitOnAux s₀ sep' (f + 1) (c :: t) acc
              = acc.reverse :: splitOnAux s₀ sep' f (t.drop sep'.length) [] from by
            simp [splitOnAux, hp]]
          rw [show splitOnAux s₀ sep' (f₂' + 1) (c :: t) acc
              = acc.reverse :: splitOnAux s₀ sep' f₂' (t.drop sep'.length) [] from by
            simp [splitOnAux, hp]]
          have hlen : (t.drop sep'.length).length ≤ f := by
            have := List.length_drop sep'.length t
            simp at h₁
            omega
          have hlen2 : (t.drop sep'.length).length ≤ f₂' := by
            have := List.length_drop sep'.length t
            simp at h₂
            omega
          rw [ih (t.drop sep'.length) f₂' [] hlen hlen2]
        · have hp' : prefixL (s₀ :: sep') (c :: t) = false := by simpa using hp
          rw [show splitOnAux s₀ sep' (f + 1) (c :: t) acc
              = splitOnAux s₀ sep' f t (c :: acc) from by simp [splitOnAux, hp']]
          rw [show splitOnAux s₀ sep' (f₂' + 1) (c :: t) acc
              = splitOnAux s₀ sep' f₂' t (c :: acc) from by simp [splitOnAux, hp']]
          have hlen : t.length ≤ f := by simp at h₁; omega
          have hlen2 : t.length ≤ f₂' := by simp at h₂; omega
          rw [ih t f₂' (c :: acc) hlen hlen2]

/-- Scanning a chunk that avoids the separator's head character yields a
single piece. -/
theorem splitOnAux_no_sep (s₀ : Char) (sep' : List Char) :
    ∀ (l : List Char) (fuel : Nat) (acc : List Char),
      s₀ ∉ l → splitOnAux s₀ sep' fuel l acc = [acc.reverse ++ l] := by
  intro l
  induction l with
  | nil =>
    intro fuel acc _
    cases fuel <;> simp [splitOnAux]
  | cons c t ih =>
    intro fuel acc hmem
    have hc : s₀ ≠ c := fun h => hmem (by simp [h])
    rcases fuel with _ | f
    · simp [splitOnAux]
    · rw [show splitOnAux s₀ sep' (f + 1) (c :: t) acc
          = splitOnAux s₀ sep' f t (c :: acc) from by
        simp [splitOnAux, prefixL_head_ne s₀ sep' c t hc]]
      rw [ih f (c :: acc) (fun h => hmem (List.mem_cons_of_mem _ h))]
      simp

/-- Scanning through a separator-free chunk followed by a separator
emits the chunk and continues after the separator. -/
theorem splitOnAux_sep_step (s₀ : Char) (sep' : List Char) :
    ∀ (l r : List Char) (fuel : Nat) (acc : List Char),
      s₀ ∉ l → l.length + sep'.length + 1 + r.length ≤ fuel →
      splitOnAux s₀ sep' fuel (l ++ ((s₀ :: sep') ++ r)) acc
        = (acc.reverse ++ l) :: splitOnAux s₀ sep' r.length r [] := by
  intro l
  induction l with
  | nil =>
    intro r fuel acc _ hfuel
    rcases fuel with _ | f
    · simp at hfuel
    · show splitOnAux s₀ sep' (f + 1) (s₀ :: (sep' ++ r)) acc = _
      rw [show splitOnAux s₀ sep' (f + 1) (s₀ :: (sep' ++ r)) acc
          = acc.reverse :: splitOnAux s₀ sep' f ((sep' ++ r).drop sep'.length) [] from by
        simp [splitOnAux, prefixL_cons_self_append]]
      rw [List.drop_left]
      rw [splitOnAux_fuel s₀ sep' f r r.length [] (by simp at hfuel; omega) (le_refl _)]
      simp
  | cons c t ih =>
    intro r fuel acc hmem hfuel
    have hc : s₀ ≠ c := fun h => hmem (by simp [h])
    rcases fuel with _ | f
    · simp at hfuel
    · show splitOnAux s₀ sep' (f + 1) (c :: (t ++ ((s₀ :: sep') ++ r))) acc = _
      rw [show splitOnAux s₀ sep' (f + 1) (c :: (t ++ ((s₀ :: sep') ++ r))) acc
          = splitOnAux s₀ sep' f (t ++ ((s₀ :: sep') ++ r)) (c :: acc) from by
        simp [splitOnAux, prefixL_head_ne s₀ sep' c _ hc]]
      rw [ih r f (c :: acc) (fun h => hmem (List.mem_cons_of_mem _ h))
        (by simp at hfuel ⊢; omega)]
      simp

/-- Splitting the join of lines that avoid the separator's head
character recovers the lines. -/
theorem split_join (s₀ : Char) (sep' : List Char) :
    ∀ (L : List (List Char)), L ≠ [] → (∀ l ∈ L, s₀ ∉ l) →
      splitOnAux s₀ sep' (joinSep (s₀ :: sep') L).length
        (joinSep (s₀ :: sep') L) [] = L := by
  intro L
  induction L with
  | nil => intro h _; exact absurd rfl h
  | cons l L' ih =>
    intro _ hmem
    cases L' with
    | nil =>
      show splitOnAux s₀ sep' l.length l [] = [l]
      rw [splitOnAux_no_sep s₀ sep' l l.length [] (hmem l (by simp))]
      simp
    | cons l₂ L'' =>
      have hj : joinSep (s₀ :: sep') (l :: l₂ :: L'')
          = l ++ ((s₀ :: sep') ++ joinSep (s₀ :: sep') (l₂ :: L'')) := by
        show l ++ (s₀ :: sep') ++ joinSep (s₀ :: sep') (l₂ :: L'') = _
        rw [List.append_assoc]
      rw [hj]
      rw [splitOnAux_sep_step s₀ sep' l (joinSep (s₀ :: sep') (l₂ :: L''))
        (l ++ ((s₀ :: sep') ++ joinSep (s₀ :: sep') (l₂ :: L''))).length []
        (hmem l (by simp)) (by simp [List.length_append]; omega)]
      rw [ih (by simp) (fun l' h' => hmem l' (List.mem_cons_of_mem _ h'))]
      simp

/-- Every character of a join comes from a line or from the
separator. -/
theorem mem_joinSep (sep : List Char) :
    ∀ (L : List (List Char)) (c : Char), c ∈ joinSep sep L →
      (∃ l ∈ L, c ∈ l) ∨ c ∈ sep := by
  intro L
  induction L with
  | nil =>
    intro c hc
    cases hc
  | cons l L' ih =>
    intro c hc
    cases L' with
    | nil =>
      exact Or.inl ⟨l, by simp, hc⟩
    | cons l₂ L'' =>
      rw [show joinSep sep (l :: l₂ :: L'') = l ++ sep ++ joinSep sep (l₂ :: L'')
        from rfl] at hc
      rcases List.mem_append.mp hc with h1 | h2
      · rcases List.mem_append.mp h1 with ha | hb
        · exact Or.inl ⟨l, by simp, ha⟩
        · exact Or.inr hb
      · rcases ih c h2 with ⟨l', hl', hc'⟩ | hs
        · exact Or.inl ⟨l', by simp [hl'], hc'⟩
        · exact Or.inr hs

/-- Joining newline-free lines with CRLF is the expansion of joining
them with LF. -/
theorem join_crlf_eq_expand :
    ∀ (L : List (List Char)), (∀ l ∈ L, '\n' ∉ l) →
      joinSep (strL "\r\n") L = expand (joinSep (strL "\n") L) := by
  intro L
  induction L with
  | nil => intro _; rfl
  | cons l L' ih =>
    intro hmem
    cases L' with
    | nil =>
      show l = expand l
      exact (expand_eq_self l (hmem l (by simp))).symm
    | cons l₂ L'' =>
      show l ++ strL "\r\n" ++ joinSep (strL "\r\n") (l₂ :: L'')
        = expand (l ++ strL "\n" ++ joinSep (strL "\n") (l₂ :: L''))
      rw [expand_append, expand_append]
      rw [expand_eq_self l (hmem l (by simp))]
      rw [show expand (strL "\n") = strL "\r\n" from rfl]
      rw [ih (fun l' h' => hmem l' (List.mem_cons_of_mem _ h'))]

end Scummer

namespace Scummer

/-- Claim C7: joining the same CR/LF-free lines with CRLF terminators or
with LF terminators yields the same extracted candidate sequence and the
same final parse result — the parser detects the terminator from the
text and splits on whichever is found. -/
theorem claim_c7_crlf_lf_agnostic (stem : List Char → Option (List Char))
    (L : List (List Char))
    (h : ∀ l ∈ L, ∀ ch ∈ l, ch ≠ '\n' ∧ ch ≠ '\r') :
    candidatesOf (joinSep (strL "\r\n") L) = candidatesOf (joinSep (strL "\n") L) ∧
    parseScummvmOutput stem (joinSep (strL "\r\n") L)
      = parseScummvmOutput stem (joinSep (strL "\n") L) := by
  match L with
  | [] => exact ⟨rfl, rfl⟩
  | [l] => exact ⟨rfl, rfl⟩
  | l₁ :: l₂ :: L' =>
    have hNL : ∀ l ∈ l₁ :: l₂ :: L', '\n' ∉ l := by
      intro l hl hmem
      exact (h l hl '\n' hmem).1 rfl
    have hCR : ∀ l ∈ l₁ :: l₂ :: L', '\r' ∉ l := by
      intro l hl hmem
      exact (h l hl '\r' hmem).2 rfl
    have hexp : joinSep (strL "\r\n") (l₁ :: l₂ :: L')
        = expand (joinSep (strL "\n") (l₁ :: l₂ :: L')) :=
      join_crlf_eq_expand _ hNL
    have hmemS : '\n' ∈ joinSep (strL "\n") (l₁ :: l₂ :: L') := by
      show '\n' ∈ l₁ ++ strL "\n" ++ joinSep (strL "\n") (l₂ :: L')
      exact List.mem_append.mpr (Or.inl (List.mem_append.mpr (Or.inr (by decide))))
    have hnoCR : '\r' ∉ joinSep (strL "\n") (l₁ :: l₂ :: L') := by
      intro hmem
      rcases mem_joinSep (strL "\n") (l₁ :: l₂ :: L') '\r' hmem with ⟨l, hl, hc⟩ | hs
      · exact hCR l hl hc
      · exact absurd hs (by decide)
    have heol1 : containsL crlfL (expand (joinSep (strL "\n") (l₁ :: l₂ :: L'))) = true :=
      containsL_crlf_expand _ hmemS
    have heol2 : containsL crlfL (joinSep (strL "\n") (l₁ :: l₂ :: L')) = false :=
      containsL_crlf_none _ hnoCR
    have hlines1 : linesOf (expand (joinSep (strL "\n") (l₁ :: l₂ :: L')))
        = l₁ :: l₂ :: L' := by
      unfold linesOf eolOf
      rw [heol1]
      simp only [if_true]
      rw [← hexp]
      show splitOnAux '\r' ['\n'] (joinSep (strL "\r\n") (l₁ :: l₂ :: L')).length
        (joinSep (strL "\r\n") (l₁ :: l₂ :: L')) [] = l₁ :: l₂ :: L'
      exact split_join '\r' ['\n'] (l₁ :: l₂ :: L') (by simp) hCR
    have hlines2 : linesOf (joinSep (strL "\n") (l₁ :: l₂ :: L')) = l₁ :: l₂ :: L' := by
      unfold linesOf eolOf
      rw [heol2]
      simp only [Bool.false_eq_true, if_false]
      show splitOnAux '\n' [] (joinSep (strL "\n") (l₁ :: l₂ :: L')).length
        (joinSep (strL "\n") (l₁ :: l₂ :: L')) [] = l₁ :: l₂ :: L'
      exact split_join '\n' [] (l₁ :: l₂ :: L') (by simp) hNL
    have hcand : candidatesOf (expand (joinSep (strL "\n") (l₁ :: l₂ :: L')))
        = candidatesOf (joinSep (strL "\n") (l₁ :: l₂ :: L')) := by
      unfold candidatesOf
      rw [hlines1, hlines2]
    have hsent : containsL sentinelL (expand (joinSep (strL "\n") (l₁ :: l₂ :: L')))
        = containsL sentinelL (joinSep (strL "\n") (l₁ :: l₂ :: L')) :=
      containsL_expand sentinelL (by decide) (by decide) _
    have hhead : headerScan (expand (joinSep (strL "\n") (l₁ :: l₂ :: L')))
        = headerScan (joinSep (strL "\n") (l₁ :: l₂ :: L')) :=
      headerScan_expand _
    rw [hexp]
    refine ⟨hcand, ?_⟩
    unfold parseScummvmOutput
    rw [hsent, hhead, hcand]

/-- Witness for C7 at a three-line table. -/
theorem claim_c7_witness :
    (∀ l ∈ [strL "GameID Description Full Path", strL "--- --- ---",
        strL "x:y  Game D  /p"], ∀ ch ∈ l, ch ≠ '\n' ∧ ch ≠ '\r') ∧
    candidatesOf (joinSep (strL "\r\n") [strL "GameID Description Full Path",
        strL "--- --- ---", strL "x:y  Game D  /p"])
      = candidatesOf (joinSep (strL "\n") [strL "GameID Description Full Path",
        strL "--- --- ---", strL "x:y  Game D  /p"]) ∧
    parseScummvmOutput stemNone (joinSep (strL "\r\n") [strL "GameID Description Full Path",
        strL "--- --- ---", strL "x:y  Game D  /p"])
      = parseScummvmOutput stemNone (joinSep (strL "\n") [strL "GameID Description Full Path",
        strL "--- --- ---", strL "x:y  Game D  /p"]) :=
  ⟨by decide,
    (claim_c7_crlf_lf_agnostic stemNone [strL "GameID Description Full Path",
      strL "--- --- ---", strL "x:y  Game D  /p"] (by decide)).1,
    (claim_c7_crlf_lf_agnostic stemNone [strL "GameID Description Full Path",
      strL "--- --- ---", strL "x:y  Game D  /p"] (by decide)).2⟩

end Scummer
